import Mathlib

/-!
Shallow embedding of the sitemap partitioning and bookkeeping engine of
abraham-ny/sitemaptool (src/main.go), together with proofs about the claims
of the specification.

Modelling conventions:
* Timestamps (time.Time, formatted dates) are modelled as natural numbers;
  the engine only stores and copies them.
* The SHA-256 hex digest computed by HashURL is modelled as an abstract
  parameter hash : String → String.  No claim depends on the actual digest
  values: determinism is automatic, and collision-freedom appears as an
  explicit hypothesis where a claim needs distinct URLs to get distinct
  hashes.
* The URLHashes map[string]bool (keys inserted with value true) is modelled
  as the list of inserted keys; json.Marshal serialises such a map with
  sorted keys, modelled by sortStrings in SaveDB.
* On-disk state is part of the World structure: the partition documents
  (an association list filename ↦ file state, where a file can also be
  corrupt/unreadable), the database file and the index document.  Writes
  (which go through write-temp-then-rename and are not claimed to fail in
  any claim under study) always succeed in the model; a read of a corrupt
  file fails, as in LoadSitemap.
* float64 priority values are modelled as rationals; the engine never
  computes with them, it only stores them.
-/

/-- MAX_URLS_PER_SITEMAP from main.go: the per-partition capacity. -/
def MAX_URLS_PER_SITEMAP : Nat := 50000

/-- The configuration fields consumed by the engine (Config in main.go);
stem is the SitemapPrefix field (partition filename stem). -/
structure Config where
  baseUrl : String
  stem : String
  respectRobots : Bool
deriving DecidableEq, Repr

/-- SitemapInfo from main.go: metadata about one partition document. -/
structure SitemapInfo where
  filename : String
  urlCount : Nat
  lastMod : Nat
deriving DecidableEq, Repr

/-- Database from main.go: the persisted Entry Store (in-memory form).
urlHashes lists the keys inserted into the URLHashes map. -/
structure Database where
  sitemaps : List SitemapInfo
  urlHashes : List String
  currentSitemap : String
  lastUpdated : Nat
deriving DecidableEq, Repr

/-- One url element of a partition document (URL in main.go). -/
structure URLrec where
  loc : String
  lastMod : Nat
  changefreq : String
  priority : Rat
deriving DecidableEq, Repr

/-- One sitemap element of the index document (SitemapEntry in main.go). -/
structure IndexEntry where
  loc : String
  lastMod : Nat
deriving DecidableEq, Repr

/-- State of one partition document on disk: present with parsed content,
or present but unreadable/not-parseable. Absence is lack of an entry. -/
inductive PartFile where
  | content (urls : List URLrec)
  | corrupt
deriving DecidableEq, Repr

/-- The Entry Store file as written by SaveDB (JSON object; the
URLHashes map is serialised as sorted key/value pairs). -/
structure DBFileJson where
  sitemaps : List SitemapInfo
  urlHashes : List (String × Bool)
  currentSitemap : String
  lastUpdated : Nat
deriving DecidableEq, Repr

/-- The whole mutable state: the in-memory store plus the three kinds of
persisted artifacts in the output directory. -/
structure World where
  db : Database
  parts : List (String × PartFile)
  dbFile : Option DBFileJson
  indexFile : Option (List IndexEntry)
deriving DecidableEq

/-- Errors AddURL reports before touching any file (the two rejection
paths of AddURL in main.go). -/
inductive AddError where
  | policyRejected
  | duplicateURL
deriving DecidableEq, Repr

/-- Byte-wise/char-wise string comparison used to model the sorted map-key
order of json.Marshal.  Only its being a total order up to permutation is
ever used. -/
def charsLe : List Char → List Char → Bool
  | [], _ => true
  | _ :: _, [] => false
  | c :: cs, d :: ds =>
    if c.toNat < d.toNat then true
    else if d.toNat < c.toNat then false
    else charsLe cs ds

def strLe (a b : String) : Bool := charsLe a.data b.data

def insertSorted (a : String) : List String → List String
  | [] => [a]
  | b :: rest => if strLe a b then a :: b :: rest else b :: insertSorted a rest

/-- Sorting of the hash keys, as json.Marshal does for map keys. -/
def sortStrings : List String → List String
  | [] => []
  | a :: rest => insertSorted a (sortStrings rest)

/-- strings.HasPrefix p-of-s test (on the character sequences). -/
def hasPrefixB (s p : String) : Bool := List.isPrefixOf p.data s.data

/-- strings.TrimSuffix(s, "/"): remove one trailing slash if present. -/
def trimSlash (s : String) : String :=
  if s.data.getLast? = some '/' then s.data.dropLast.asString else s

/-- IsURLAllowed from main.go: with RespectRobots off everything is
allowed; otherwise the URL is rejected as soon as some disallowed path is
a string prefix of the URL.  rules models the key set of RobotsRules. -/
def IsURLAllowed (cfg : Config) (rules : List String) (url : String) : Bool :=
  if !cfg.respectRobots then true
  else !(rules.any (fun disallowPath => hasPrefixB url disallowPath))

/-- Partition file name: fmt.Sprintf("%s_%d.xml", prefix, n). -/
def mkSitemapName (cfg : Config) (n : Nat) : String :=
  cfg.stem ++ "_" ++ toString n ++ ".xml"

/-- NeedNewSitemap from main.go. -/
def NeedNewSitemap (db : Database) : Bool :=
  if db.currentSitemap == "" then true
  else
    match db.sitemaps.find? (fun info => info.filename == db.currentSitemap) with
    | some info => decide (MAX_URLS_PER_SITEMAP ≤ info.urlCount)
    | none => false

/-- CreateNewSitemap from main.go: append a fresh zero-count partition
record and make it current.  Pure metadata change. -/
def CreateNewSitemap (cfg : Config) (db : Database) (now : Nat) :
    String × Database :=
  let sitemapNum := db.sitemaps.length + 1
  let filename := mkSitemapName cfg sitemapNum
  (filename,
    { db with
        sitemaps := db.sitemaps ++ [{ filename := filename, urlCount := 0, lastMod := now }],
        currentSitemap := filename })

/-- GetCurrentSitemap from main.go. -/
def GetCurrentSitemap (cfg : Config) (db : Database) (now : Nat) :
    String × Database :=
  if db.currentSitemap == "" || NeedNewSitemap db then CreateNewSitemap cfg db now
  else (db.currentSitemap, db)

/-- Read a partition file from the modelled output directory. -/
def fsRead (parts : List (String × PartFile)) (filename : String) :
    Option PartFile :=
  (parts.find? (fun kv => kv.1 == filename)).map (fun kv => kv.2)

/-- Atomic replace of a partition file (SaveSitemap's
write-temp-then-rename); overwrites the existing entry or appends. -/
def fsWrite : List (String × PartFile) → String → List URLrec →
    List (String × PartFile)
  | [], filename, urls => [(filename, .content urls)]
  | kv :: rest, filename, urls =>
    if kv.1 == filename then (filename, .content urls) :: rest
    else kv :: fsWrite rest filename urls

/-- LoadSitemap from main.go: an absent file yields a fresh empty urlset;
an unreadable or unparseable file is an error. -/
def LoadSitemap (parts : List (String × PartFile)) (filename : String) :
    Except Unit (List URLrec) :=
  match fsRead parts filename with
  | none => .ok []
  | some (.content urls) => .ok urls
  | some .corrupt => .error ()

/-- Helper of UpdateSitemapInfo: the Go loop updates the first record
whose Filename matches and then returns. -/
def updateFirst (filename : String) (urlCount now : Nat) :
    List SitemapInfo → List SitemapInfo
  | [] => []
  | info :: rest =>
    if info.filename == filename then
      { info with urlCount := urlCount, lastMod := now } :: rest
    else info :: updateFirst filename urlCount now rest

/-- UpdateSitemapInfo from main.go. -/
def UpdateSitemapInfo (db : Database) (filename : String) (urlCount now : Nat) :
    Database :=
  { db with sitemaps := updateFirst filename urlCount now db.sitemaps }

/-- GenerateSitemapIndex from main.go: full rebuild of the index document
from the partition metadata, in order. -/
def GenerateSitemapIndex (cfg : Config) (db : Database) : List IndexEntry :=
  db.sitemaps.map (fun info =>
    { loc := trimSlash cfg.baseUrl ++ "/" ++ info.filename
      lastMod := info.lastMod })

/-- The file content written by SaveDB (LastUpdated is refreshed to now
before marshalling; map keys come out sorted). -/
def SaveDB (db : Database) (now : Nat) : DBFileJson :=
  { sitemaps := db.sitemaps
    urlHashes := (sortStrings db.urlHashes).map (fun h => (h, true))
    currentSitemap := db.currentSitemap
    lastUpdated := now }

/-- The in-memory store resulting from parsing an Entry Store file
(LoadDB's unmarshalling): the hash set is the set of keys mapped to true. -/
def decodeDB (f : DBFileJson) : Database :=
  { sitemaps := f.sitemaps
    urlHashes := (f.urlHashes.filter (fun kv => kv.2)).map (fun kv => kv.1)
    currentSitemap := f.currentSitemap
    lastUpdated := f.lastUpdated }

/-- The fresh store LoadDB builds when no database file exists. -/
def freshDB (now : Nat) : Database :=
  { sitemaps := [], urlHashes := [], currentSitemap := "", lastUpdated := now }

/-- LoadDB from main.go: fresh store if the file is absent (it is then
persisted), otherwise the parsed content. -/
def LoadDB : Option DBFileJson → Nat → Database
  | none, now => freshDB now
  | some f, _ => decodeDB f

/-- The world right after the first invocation created and persisted a
fresh empty store (LoadDB on a missing file calls SaveDB). -/
def freshWorld (now : Nat) : World :=
  { db := freshDB now
    parts := []
    dbFile := some (SaveDB (freshDB now) now)
    indexFile := none }

/-- AddURL from main.go, threading the full state.  The second component
is the reported error; on an error the state is returned as it was at the
return statement.  Note that a LoadSitemap failure is swallowed: the code
replaces the result with a fresh empty urlset and continues. -/
def AddURL (cfg : Config) (rules : List String) (hash : String → String)
    (w : World) (url changefreq : String) (priority : Rat) (now : Nat) :
    World × Option AddError :=
  if !(IsURLAllowed cfg rules url) then (w, some .policyRejected)
  else
    let urlHash := hash url
    if w.db.urlHashes.contains urlHash then (w, some .duplicateURL)
    else
      let res := GetCurrentSitemap cfg w.db now
      let currentSitemap := res.1
      let db1 := res.2
      let urlset :=
        match LoadSitemap w.parts currentSitemap with
        | .ok u => u
        | .error _ => []
      let urlset2 := urlset ++ [{ loc := url, lastMod := now,
                                  changefreq := changefreq, priority := priority }]
      let db2 := { db1 with urlHashes := db1.urlHashes ++ [urlHash] }
      let parts2 := fsWrite w.parts currentSitemap urlset2
      let db3 := UpdateSitemapInfo db2 currentSitemap urlset2.length now
      let db4 := { db3 with lastUpdated := now }
      ({ db := db4
         parts := parts2
         dbFile := some (SaveDB db3 now)
         indexFile := some (GenerateSitemapIndex cfg db4) }, none)

/-- The create command (createCmd in main.go): CreateNewSitemap, SaveDB,
GenerateSitemapIndex.  It never writes a partition document. -/
def CreateCmd (cfg : Config) (w : World) (now : Nat) : World :=
  let res := CreateNewSitemap cfg w.db now
  let db1 := res.2
  let db2 := { db1 with lastUpdated := now }
  { db := db2
    parts := w.parts
    dbFile := some (SaveDB db1 now)
    indexFile := some (GenerateSitemapIndex cfg db2) }

/-- Run AddURL on each URL in turn, stopping at the first rejection. -/
def addAll (cfg : Config) (rules : List String) (hash : String → String)
    (changefreq : String) (priority : Rat) (now : Nat) :
    World → List String → Option World
  | w, [] => some w
  | w, url :: rest =>
    match AddURL cfg rules hash w url changefreq priority now with
    | (w', none) => addAll cfg rules hash changefreq priority now w' rest
    | (_, some _) => none

/-- States reachable from a fresh empty store by successful mutating
commands (add and create). -/
inductive Reachable (cfg : Config) (rules : List String)
    (hash : String → String) : World → Prop where
  | init (now : Nat) : Reachable cfg rules hash (freshWorld now)
  | add {w w' : World} (url changefreq : String) (priority : Rat) (now : Nat) :
      Reachable cfg rules hash w →
      AddURL cfg rules hash w url changefreq priority now = (w', none) →
      Reachable cfg rules hash w'
  | create {w : World} (now : Nat) :
      Reachable cfg rules hash w → Reachable cfg rules hash (CreateCmd cfg w now)

/-- States reachable from a fresh empty store by successful add commands
only. -/
inductive ReachableAdd (cfg : Config) (rules : List String)
    (hash : String → String) : World → Prop where
  | init (now : Nat) : ReachableAdd cfg rules hash (freshWorld now)
  | add {w w' : World} (url changefreq : String) (priority : Rat) (now : Nat) :
      ReachableAdd cfg rules hash w →
      AddURL cfg rules hash w url changefreq priority now = (w', none) →
      ReachableAdd cfg rules hash w'

/-- Sum of the per-partition entry counts. -/
def sumCounts (l : List SitemapInfo) : Nat := (l.map (fun i => i.urlCount)).sum

/-- The filenames of the partition records, in creation order. -/
def partNames (l : List SitemapInfo) : List String := l.map (fun i => i.filename)

/-- The canonical filename sequence stem_1.xml … stem_n.xml. -/
def canonNames (cfg : Config) (n : Nat) : List String :=
  (List.range n).map (fun i => mkSitemapName cfg (i + 1))

/-- A trivial concrete stand-in for the SHA-256 hex digest, used to
instantiate witnesses; it is injective, as the digest is assumed to be on
the inputs under study. -/
def idHash (s : String) : String := s

/-- A concrete configuration for witnesses. -/
def cfg0 : Config :=
  { baseUrl := "https://example.com", stem := "sitemap", respectRobots := true }

/-- cfg0 with robots disabled. -/
def cfgFree : Config :=
  { baseUrl := "https://example.com", stem := "sitemap", respectRobots := false }

/-! ### Decimal representation: Nat.repr is injective

mkSitemapName embeds the Go fmt %d rendering via toString; the freshness
of newly allocated partition names rests on its injectivity. -/

/-- Fuel-free most-significant-first decimal digit list of a Nat. -/
def natDigits (n : Nat) : List Char :=
  if n < 10 then [Nat.digitChar n]
  else natDigits (n / 10) ++ [Nat.digitChar (n % 10)]
decreasing_by exact Nat.div_lt_self (by omega) (by omega)

theorem toDigitsCore_eq_natDigits (fuel : Nat) :
    ∀ (n : Nat) (ds : List Char), n < fuel →
      Nat.toDigitsCore 10 fuel n ds = natDigits n ++ ds := by
  induction fuel with
  | zero => intro n ds h; omega
  | succ f ih =>
    intro n ds h
    simp only [Nat.toDigitsCore]
    by_cases h10 : n / 10 = 0
    · have hn : n < 10 := by omega
      rw [if_pos h10, natDigits, if_pos hn, Nat.mod_eq_of_lt hn]
      rfl
    · rw [if_neg h10]
      have hlt : n / 10 < f := by
        have := Nat.div_lt_self (n := n) (by omega) (by omega : 1 < 10)
        omega
      conv_rhs => rw [natDigits]
      rw [if_neg (by omega : ¬ n < 10), ih (n / 10) _ hlt]
      simp

theorem toDigits_eq_natDigits (n : Nat) : Nat.toDigits 10 n = natDigits n := by
  rw [Nat.toDigits, toDigitsCore_eq_natDigits (n + 1) n [] (by omega)]
  simp

/-- Decimal value of a digit character (inverse of Nat.digitChar below 10). -/
def charVal (c : Char) : Nat := c.toNat - 48

theorem charVal_digitChar : ∀ d < 10, charVal (Nat.digitChar d) = d := by decide

/-- Value of a most-significant-first digit string. -/
def valDigits (l : List Char) : Nat := l.foldl (fun a c => a * 10 + charVal c) 0

theorem foldl_natDigits (n : Nat) :
    ∀ a : Nat, (natDigits n).foldl (fun a c => a * 10 + charVal c) a =
      a * 10 ^ (natDigits n).length + n := by
  induction n using Nat.strong_induction_on with
  | _ n ih =>
    intro a
    by_cases h : n < 10
    · rw [natDigits, if_pos h]
      simp [charVal_digitChar n h]
    · rw [natDigits, if_neg h]
      have hlt : n / 10 < n := Nat.div_lt_self (by omega) (by omega)
      rw [List.foldl_append, ih (n / 10) hlt a]
      have hm : n % 10 < 10 := Nat.mod_lt _ (by omega)
      simp only [List.foldl_cons, List.foldl_nil, List.length_append,
        List.length_singleton, charVal_digitChar _ hm]
      rw [pow_succ]
      have : 10 * (n / 10) + n % 10 = n := Nat.div_add_mod n 10
      ring_nf
      omega

theorem valDigits_natDigits (n : Nat) : valDigits (natDigits n) = n := by
  have := foldl_natDigits n 0
  simpa [valDigits] using this

theorem natDigits_injective : Function.Injective natDigits := by
  intro a b h
  have := valDigits_natDigits a
  rw [h, valDigits_natDigits b] at this
  omega

theorem natRepr_injective : Function.Injective Nat.repr := by
  intro a b h
  apply natDigits_injective
  rw [← toDigits_eq_natDigits, ← toDigits_eq_natDigits]
  have : (Nat.toDigits 10 a).asString.data = (Nat.toDigits 10 b).asString.data := by
    rw [show (Nat.toDigits 10 a).asString = Nat.repr a from rfl,
        show (Nat.toDigits 10 b).asString = Nat.repr b from rfl, h]
  simpa using this

/-! ### Partition names -/

theorem string_append_data (s t : String) : (s ++ t).data = s.data ++ t.data :=
  String.data_append s t

theorem mkSitemapName_inj (cfg : Config) {a b : Nat} :
    mkSitemapName cfg a = mkSitemapName cfg b → a = b := by
  intro h
  unfold mkSitemapName at h
  have hd := congrArg String.data h
  simp only [string_append_data] at hd
  have h1 := (List.append_inj' hd (by simp)).1
  have h2 : (toString a).data = (toString b).data := by simpa using h1
  apply natRepr_injective
  apply String.ext
  exact h2

theorem mkSitemapName_length (cfg : Config) (n : Nat) :
    4 ≤ (mkSitemapName cfg n).length := by
  unfold mkSitemapName
  have h4 : (".xml" : String).length = 4 := rfl
  simp only [String.length_append, h4]
  omega

theorem mkSitemapName_ne_empty (cfg : Config) (n : Nat) :
    mkSitemapName cfg n ≠ "" := by
  intro h
  have := mkSitemapName_length cfg n
  rw [h] at this
  simp [String.length] at this

theorem canonNames_succ (cfg : Config) (n : Nat) :
    canonNames cfg (n + 1) = canonNames cfg n ++ [mkSitemapName cfg (n + 1)] := by
  unfold canonNames
  rw [List.range_succ]
  simp

theorem mem_canonNames {cfg : Config} {n : Nat} {s : String} :
    s ∈ canonNames cfg n ↔ ∃ k, 1 ≤ k ∧ k ≤ n ∧ s = mkSitemapName cfg k := by
  unfold canonNames
  simp only [List.mem_map, List.mem_range]
  constructor
  · rintro ⟨i, hi, rfl⟩
    exact ⟨i + 1, by omega, by omega, rfl⟩
  · rintro ⟨k, hk1, hkn, rfl⟩
    exact ⟨k - 1, by omega, by rw [Nat.sub_add_cancel hk1]⟩

theorem mkSitemapName_not_mem_canon (cfg : Config) (n : Nat) {m : Nat}
    (h : n < m) : mkSitemapName cfg m ∉ canonNames cfg n := by
  intro hmem
  obtain ⟨k, hk1, hkn, heq⟩ := mem_canonNames.mp hmem
  have := mkSitemapName_inj cfg heq.symm
  omega

/-! ### Small structural lemmas about the operations -/

theorem fsRead_fsWrite_self (parts : List (String × PartFile)) (fn : String)
    (urls : List URLrec) : fsRead (fsWrite parts fn urls) fn = some (.content urls) := by
  induction parts with
  | nil => simp [fsWrite, fsRead, List.find?]
  | cons kv rest ih =>
    by_cases hk : kv.1 == fn
    · simp [fsWrite, hk, fsRead, List.find?]
    · simp only [fsWrite, hk, Bool.false_eq_true, if_false]
      simpa [fsRead, List.find?, hk] using ih

theorem fsRead_fsWrite_ne (parts : List (String × PartFile)) (fn g : String)
    (urls : List URLrec) (h : g ≠ fn) :
    fsRead (fsWrite parts fn urls) g = fsRead parts g := by
  induction parts with
  | nil =>
    simp only [fsWrite, fsRead, List.find?]
    have : (fn == g) = false := by simpa using fun he => h he.symm
    simp [this]
  | cons kv rest ih =>
    by_cases hk : kv.1 == fn
    · have hkv : kv.1 = fn := by simpa using hk
      have : (fn == g) = false := by simpa using fun he => h he.symm
      simp [fsWrite, hk, fsRead, List.find?, this, hkv]
    · simp only [fsWrite, hk, Bool.false_eq_true, if_false]
      by_cases hg : kv.1 == g
      · simp [fsRead, List.find?, hg]
      · simpa [fsRead, List.find?, hg] using ih

theorem fsWrite_keys (parts : List (String × PartFile)) (fn : String)
    (urls : List URLrec) :
    ∀ kv ∈ fsWrite parts fn urls, kv.1 = fn ∨ kv.1 ∈ parts.map (fun x => x.1) := by
  induction parts with
  | nil => intro kv hkv; simp [fsWrite] at hkv; simp [hkv]
  | cons hd rest ih =>
    intro kv hkv
    by_cases hk : hd.1 == fn
    · simp only [fsWrite, hk, if_true, List.mem_cons] at hkv
      rcases hkv with rfl | hkv
      · simp
      · right
        simp only [List.map_cons, List.mem_cons]
        exact Or.inr (List.mem_map.mpr ⟨kv, hkv, rfl⟩)
    · simp only [fsWrite, hk, Bool.false_eq_true, if_false, List.mem_cons] at hkv
      rcases hkv with rfl | hkv
      · right; simp
      · rcases ih kv hkv with h | h
        · exact Or.inl h
        · right; simp [List.mem_map] at h ⊢; tauto

theorem fsRead_eq_none (parts : List (String × PartFile)) (fn : String)
    (h : ∀ kv ∈ parts, kv.1 ≠ fn) : fsRead parts fn = none := by
  induction parts with
  | nil => rfl
  | cons kv rest ih =>
    have h1 : (kv.1 == fn) = false := by simpa using h kv (by simp)
    simp only [fsRead, List.find?, h1]
    exact ih (fun x hx => h x (by simp [hx]))

theorem updateFirst_names (fn : String) (c m : Nat) (l : List SitemapInfo) :
    partNames (updateFirst fn c m l) = partNames l := by
  induction l with
  | nil => rfl
  | cons info rest ih =>
    by_cases hk : info.filename == fn
    · have : info.filename = fn := by simpa using hk
      simp [updateFirst, hk, partNames, this]
    · simp only [updateFirst, hk, Bool.false_eq_true, if_false]
      simp only [partNames, List.map_cons] at ih ⊢
      rw [ih]

theorem updateFirst_skip (fn : String) (c m : Nat) (pre : List SitemapInfo)
    (e : SitemapInfo) (hpre : ∀ x ∈ pre, x.filename ≠ fn) (he : e.filename = fn) :
    updateFirst fn c m (pre ++ [e]) =
      pre ++ [{ e with urlCount := c, lastMod := m }] := by
  induction pre with
  | nil => simp [updateFirst, he]
  | cons hd rest ih =>
    have h1 : (hd.filename == fn) = false := by simpa using hpre hd (by simp)
    simp only [List.cons_append, updateFirst, h1, Bool.false_eq_true, if_false,
      List.cons.injEq, true_and]
    exact ih (fun x hx => hpre x (by simp [hx]))

theorem find?_last (p : SitemapInfo → Bool) (pre : List SitemapInfo)
    (e : SitemapInfo) (hpre : ∀ x ∈ pre, p x = false) :
    (pre ++ [e]).find? p = if p e then some e else none := by
  induction pre with
  | nil => cases hpe : p e <;> simp [List.find?, hpe]
  | cons hd rest ih =>
    have h1 := hpre hd (by simp)
    simp only [List.cons_append, List.find?, h1]
    exact ih (fun x hx => hpre x (by simp [hx]))

theorem mem_insertSorted (a s : String) (l : List String) :
    s ∈ insertSorted a l ↔ s = a ∨ s ∈ l := by
  induction l with
  | nil => simp [insertSorted]
  | cons b rest ih =>
    by_cases hle : strLe a b
    · simp [insertSorted, hle]
    · simp only [insertSorted, hle, Bool.false_eq_true, if_false, List.mem_cons, ih]
      tauto

theorem mem_sortStrings (s : String) (l : List String) :
    s ∈ sortStrings l ↔ s ∈ l := by
  induction l with
  | nil => simp [sortStrings]
  | cons a rest ih =>
    simp only [sortStrings, mem_insertSorted, List.mem_cons, ih]

/-! ### The reachability invariant -/

/-- The on-disk document of a partition record is consistent with its
recorded entry count: either no file yet (count 0), or a readable document
with exactly urlCount entries. -/
def FileMatch (parts : List (String × PartFile)) (info : SitemapInfo) : Prop :=
  (fsRead parts info.filename = none ∧ info.urlCount = 0) ∨
  (∃ urls, fsRead parts info.filename = some (.content urls) ∧
    urls.length = info.urlCount)

/-- Invariant maintained by every successful add/create command starting
from a fresh store. -/
structure StoreInv (cfg : Config) (w : World) : Prop where
  hashesNodup : w.db.urlHashes.Nodup
  sumEq : sumCounts w.db.sitemaps = w.db.urlHashes.length
  namesCanon : partNames w.db.sitemaps = canonNames cfg w.db.sitemaps.length
  currentLast : (w.db.sitemaps = [] ∧ w.db.currentSitemap = "") ∨
    (∃ pre e, w.db.sitemaps = pre ++ [e] ∧ w.db.currentSitemap = e.filename)
  partsDom : ∀ kv ∈ w.parts, kv.1 ∈ partNames w.db.sitemaps
  filesMatch : ∀ info ∈ w.db.sitemaps, FileMatch w.parts info

theorem storeInv_fresh (cfg : Config) (now : Nat) : StoreInv cfg (freshWorld now) := by
  constructor <;> simp [freshWorld, freshDB, sumCounts, partNames, canonNames]

theorem sumCounts_append (a b : List SitemapInfo) :
    sumCounts (a ++ b) = sumCounts a + sumCounts b := by
  simp [sumCounts]

theorem partNames_append (a b : List SitemapInfo) :
    partNames (a ++ b) = partNames a ++ partNames b := by
  simp [partNames]

theorem canonNames_length (cfg : Config) (n : Nat) :
    (canonNames cfg n).length = n := by
  simp [canonNames]

/-- Splits the canonical-names invariant of a nonempty partition list into
the facts about its prefix and its last (current-designate) record. -/
theorem names_split (cfg : Config) (pre : List SitemapInfo) (e : SitemapInfo)
    (h : partNames (pre ++ [e]) = canonNames cfg (pre ++ [e]).length) :
    partNames pre = canonNames cfg pre.length ∧
      e.filename = mkSitemapName cfg (pre.length + 1) := by
  rw [partNames_append, List.length_append] at h
  simp only [List.length_singleton] at h
  rw [canonNames_succ] at h
  have := List.append_inj' h (by simp [partNames])
  refine ⟨this.1, ?_⟩
  have h2 := this.2
  simp [partNames] at h2
  exact h2

theorem pre_filename_ne (cfg : Config) (pre : List SitemapInfo) (m : Nat)
    (hpre : partNames pre = canonNames cfg m) {k : Nat} (hk : m < k) :
    ∀ x ∈ pre, x.filename ≠ mkSitemapName cfg k := by
  intro x hx heq
  have hmem : x.filename ∈ partNames pre := List.mem_map.mpr ⟨x, hx, rfl⟩
  rw [hpre, heq] at hmem
  exact mkSitemapName_not_mem_canon cfg m hk hmem

theorem getCurrentSitemap_urlHashes (cfg : Config) (db : Database) (now : Nat) :
    (GetCurrentSitemap cfg db now).2.urlHashes = db.urlHashes := by
  unfold GetCurrentSitemap CreateNewSitemap
  by_cases h : (db.currentSitemap == "" || NeedNewSitemap db) <;> simp [h]

theorem contains_eq_false_of_not_mem {l : List String} {a : String}
    (h : a ∉ l) : l.contains a = false := by
  cases hc : l.contains a
  · rfl
  · exact absurd (List.elem_iff.mp hc) h

/-- Inversion of a successful AddURL run: the two checks passed, the hash
was appended, and the index document was regenerated from the final
store.  Needs no invariant. -/
theorem addURL_ok_fields (cfg : Config) (rules : List String)
    (hash : String → String) (w w' : World) (url cf : String) (p : Rat)
    (now : Nat) (h : AddURL cfg rules hash w url cf p now = (w', none)) :
    IsURLAllowed cfg rules url = true ∧
      hash url ∉ w.db.urlHashes ∧
      w'.db.urlHashes = w.db.urlHashes ++ [hash url] ∧
      w'.indexFile = some (GenerateSitemapIndex cfg w'.db) := by
  by_cases hal : IsURLAllowed cfg rules url
  · by_cases hcont : w.db.urlHashes.contains (hash url)
    · exfalso
      simp only [AddURL, hal, Bool.not_true, Bool.false_eq_true, if_false,
        hcont, if_true] at h
      exact Option.noConfusion (congrArg Prod.snd h)
    · have hmem : hash url ∉ w.db.urlHashes := fun hm =>
        hcont (List.elem_iff.mpr hm)
      simp only [AddURL, hal, Bool.not_true, Bool.false_eq_true, if_false,
        hcont, eq_self_iff_true] at h
      injection h with h1 h2
      subst h1
      refine ⟨hal, hmem, ?_, rfl⟩
      simp [UpdateSitemapInfo, getCurrentSitemap_urlHashes]
  · exfalso
    have hal' : IsURLAllowed cfg rules url = false := by
      cases hv : IsURLAllowed cfg rules url
      · rfl
      · exact absurd hv hal
    simp only [AddURL, hal', Bool.not_false, if_true] at h
    exact Option.noConfusion (congrArg Prod.snd h)

theorem nodup_append_singleton {l : List String} {a : String}
    (h : l.Nodup) (ha : a ∉ l) : (l ++ [a]).Nodup := by
  simp only [List.nodup_append, List.nodup_cons, List.not_mem_nil,
    not_false_iff, List.nodup_nil, and_true, true_and]
  exact ⟨h, fun b hb hba => ha ((List.mem_singleton.mp hba) ▸ hb)⟩

theorem fileMatch_congr {parts parts' : List (String × PartFile)}
    {info : SitemapInfo}
    (h : fsRead parts' info.filename = fsRead parts info.filename)
    (hm : FileMatch parts info) : FileMatch parts' info := by
  unfold FileMatch at hm ⊢
  rw [h]
  exact hm

/-- Master description of a successful AddURL on an invariant-holding
world: the checks pass, the run succeeds, the invariant is preserved, one
hash is appended, and the partition metadata evolves in exactly one of
two ways — the current (last) partition absorbs the entry, or a new
partition is allocated (exactly when no partition exists or the current
one is at capacity) and absorbs it. -/
theorem addURL_ok_master (cfg : Config) (rules : List String)
    (hash : String → String) (w : World) (url cf : String) (p : Rat)
    (now : Nat) (inv : StoreInv cfg w)
    (hal : IsURLAllowed cfg rules url = true)
    (hfresh : hash url ∉ w.db.urlHashes) :
    ∃ w', AddURL cfg rules hash w url cf p now = (w', none) ∧
      StoreInv cfg w' ∧
      w'.db.urlHashes = w.db.urlHashes ++ [hash url] ∧
      ((∃ pre e, w.db.sitemaps = pre ++ [e] ∧
          w.db.currentSitemap = e.filename ∧
          e.urlCount < MAX_URLS_PER_SITEMAP ∧
          w'.db.sitemaps =
            pre ++ [{ e with urlCount := e.urlCount + 1, lastMod := now }] ∧
          w'.db.currentSitemap = w.db.currentSitemap) ∨
        ((w.db.sitemaps = [] ∨ ∃ pre e, w.db.sitemaps = pre ++ [e] ∧
            w.db.currentSitemap = e.filename ∧
            MAX_URLS_PER_SITEMAP ≤ e.urlCount) ∧
          w'.db.sitemaps = w.db.sitemaps ++
            [{ filename := mkSitemapName cfg (w.db.sitemaps.length + 1),
               urlCount := 1, lastMod := now }] ∧
          w'.db.currentSitemap = mkSitemapName cfg (w.db.sitemaps.length + 1))) := by
  have hcont : w.db.urlHashes.contains (hash url) = false :=
    contains_eq_false_of_not_mem hfresh
  by_cases hflag : (w.db.currentSitemap == "" || NeedNewSitemap w.db) = true
  · -- rollover: a fresh partition is allocated
    have hnames : ∀ x ∈ w.db.sitemaps,
        x.filename ≠ mkSitemapName cfg (w.db.sitemaps.length + 1) := by
      intro x hx heq
      have hmem : x.filename ∈ partNames w.db.sitemaps :=
        List.mem_map.mpr ⟨x, hx, rfl⟩
      rw [inv.namesCanon, heq] at hmem
      exact mkSitemapName_not_mem_canon cfg _ (by omega) hmem
    have hcond : w.db.sitemaps = [] ∨ ∃ pre e, w.db.sitemaps = pre ++ [e] ∧
        w.db.currentSitemap = e.filename ∧
        MAX_URLS_PER_SITEMAP ≤ e.urlCount := by
      rcases inv.currentLast with ⟨hnil, _⟩ | ⟨pre, e, hsplit, hcur⟩
      · exact Or.inl hnil
      · right
        obtain ⟨hpre, hename⟩ := names_split cfg pre e (hsplit ▸ inv.namesCanon)
        have hne : (w.db.currentSitemap == "") = false := by
          rw [hcur, hename]
          simpa using mkSitemapName_ne_empty cfg (pre.length + 1)
        rw [Bool.or_eq_true] at hflag
        rcases hflag with h1 | h2
        · rw [hne] at h1; exact absurd h1 (by simp)
        · have hpe : (fun info => info.filename == w.db.currentSitemap) e = true := by
            simp [hcur]
          have hppre : ∀ x ∈ pre,
              (fun info => info.filename == w.db.currentSitemap) x = false := by
            intro x hx
            have := pre_filename_ne cfg pre pre.length hpre
              (by omega : pre.length < pre.length + 1) x hx
            rw [hcur, hename]
            simpa using this
          have hfind : w.db.sitemaps.find?
              (fun info => info.filename == w.db.currentSitemap) = some e := by
            rw [hsplit, find?_last _ _ _ hppre, if_pos hpe]
          unfold NeedNewSitemap at h2
          rw [hne] at h2
          simp only [Bool.false_eq_true, if_false, hfind] at h2
          simp only [decide_eq_true_eq] at h2
          exact ⟨pre, e, hsplit, hcur, h2⟩
    have hg : GetCurrentSitemap cfg w.db now =
        (mkSitemapName cfg (w.db.sitemaps.length + 1),
          { w.db with
              sitemaps := w.db.sitemaps ++
                [{ filename := mkSitemapName cfg (w.db.sitemaps.length + 1),
                   urlCount := 0, lastMod := now }],
              currentSitemap := mkSitemapName cfg (w.db.sitemaps.length + 1) }) := by
      rw [GetCurrentSitemap, if_pos hflag]
      rfl
    have hread : fsRead w.parts (mkSitemapName cfg (w.db.sitemaps.length + 1)) = none := by
      apply fsRead_eq_none
      intro kv hkv heq
      have hmem := inv.partsDom kv hkv
      rw [heq, inv.namesCanon] at hmem
      exact mkSitemapName_not_mem_canon cfg _ (by omega) hmem
    have hload : LoadSitemap w.parts (mkSitemapName cfg (w.db.sitemaps.length + 1)) =
        .ok [] := by
      simp [LoadSitemap, hread]
    have hupd : updateFirst (mkSitemapName cfg (w.db.sitemaps.length + 1)) 1 now
        (w.db.sitemaps ++
          [{ filename := mkSitemapName cfg (w.db.sitemaps.length + 1),
             urlCount := 0, lastMod := now }]) =
        w.db.sitemaps ++
          [{ filename := mkSitemapName cfg (w.db.sitemaps.length + 1),
             urlCount := 1, lastMod := now }] := by
      rw [updateFirst_skip _ _ _ _ _ hnames rfl]
    simp only [AddURL, hal, Bool.not_true, Bool.false_eq_true, if_false, hcont,
      hg, hload, UpdateSitemapInfo, List.nil_append, List.length_cons,
      List.length_nil, Nat.zero_add, hupd]
    refine ⟨_, rfl, ?_, by simp, Or.inr ⟨hcond, by simp, by simp⟩⟩
    constructor
    · exact nodup_append_singleton inv.hashesNodup hfresh
    · show sumCounts (w.db.sitemaps ++ [_]) = (w.db.urlHashes ++ [hash url]).length
      rw [sumCounts_append]
      have hs := inv.sumEq
      simp only [sumCounts, List.map_cons, List.map_nil, List.sum_cons,
        List.sum_nil, List.length_append, List.length_singleton] at hs ⊢
      omega
    · show partNames (w.db.sitemaps ++ [_]) =
        canonNames cfg (w.db.sitemaps ++ [_]).length
      rw [partNames_append, List.length_append, List.length_singleton,
        canonNames_succ, inv.namesCanon]
      rfl
    · exact Or.inr ⟨w.db.sitemaps, _, rfl, rfl⟩
    · intro kv hkv
      rcases fsWrite_keys _ _ _ kv hkv with h | h
      · show kv.1 ∈ partNames (w.db.sitemaps ++ [_])
        rw [partNames_append, h]
        simp [partNames]
      · obtain ⟨kv', hkv', hfst⟩ := List.mem_map.mp h
        have := inv.partsDom kv' hkv'
        show kv.1 ∈ partNames (w.db.sitemaps ++ [_])
        rw [partNames_append, ← hfst] at *
        exact List.mem_append_left _ this
    · intro info hinfo
      rcases List.mem_append.mp hinfo with hin | hin
      · refine fileMatch_congr ?_ (inv.filesMatch info hin)
        exact fsRead_fsWrite_ne _ _ _ _ (hnames info hin)
      · rw [List.mem_singleton.mp hin]
        exact Or.inr ⟨_, fsRead_fsWrite_self _ _ _, rfl⟩
  · -- append to the existing current partition
    have hflag' : (w.db.currentSitemap == "" || NeedNewSitemap w.db) = false := by
      cases hv : (w.db.currentSitemap == "" || NeedNewSitemap w.db)
      · rfl
      · exact absurd hv hflag
    rw [Bool.or_eq_false_iff] at hflag'
    obtain ⟨hne, hnn⟩ := hflag'
    rcases inv.currentLast with ⟨hnil, hcur⟩ | ⟨pre, e, hsplit, hcur⟩
    · exfalso
      rw [hcur] at hne
      simp at hne
    obtain ⟨hpre, hename⟩ := names_split cfg pre e (hsplit ▸ inv.namesCanon)
    have hprene : ∀ x ∈ pre, x.filename ≠ w.db.currentSitemap := by
      intro x hx
      rw [hcur, hename]
      exact pre_filename_ne cfg pre pre.length hpre (by omega) x hx
    have hpe : (fun info => info.filename == w.db.currentSitemap) e = true := by
      simp [hcur]
    have hppre : ∀ x ∈ pre,
        (fun info => info.filename == w.db.currentSitemap) x = false := by
      intro x hx
      simpa using hprene x hx
    have hfind : w.db.sitemaps.find?
        (fun info => info.filename == w.db.currentSitemap) = some e := by
      rw [hsplit, find?_last _ _ _ hppre, if_pos hpe]
    have hlt : e.urlCount < MAX_URLS_PER_SITEMAP := by
      unfold NeedNewSitemap at hnn
      rw [hne] at hnn
      simp only [Bool.false_eq_true, if_false, hfind] at hnn
      simpa using hnn
    have hg : GetCurrentSitemap cfg w.db now = (w.db.currentSitemap, w.db) := by
      rw [GetCurrentSitemap, if_neg (by simp [hne, hnn])]
    have hemem : e ∈ w.db.sitemaps := by rw [hsplit]; simp
    -- the current partition document agrees with the recorded count
    rcases inv.filesMatch e hemem with ⟨hrd, hcnt⟩ | ⟨ulist, hrd, hlen⟩
    · -- absent file, count 0
      have hload : LoadSitemap w.parts w.db.currentSitemap = .ok [] := by
        rw [hcur] at *
        simp [LoadSitemap, hrd]
      have hupd : updateFirst w.db.currentSitemap 1 now (pre ++ [e]) =
          pre ++ [{ e with urlCount := 1, lastMod := now }] := by
        rw [updateFirst_skip _ _ _ _ _ hprene hcur.symm]
      simp only [AddURL, hal, Bool.not_true, Bool.false_eq_true, if_false,
        hcont, hg, hload, UpdateSitemapInfo, List.nil_append,
        List.length_cons, List.length_nil, Nat.zero_add, hsplit, hupd]
      refine ⟨_, rfl, ?_, by simp, Or.inl ⟨pre, e, rfl, hcur, hlt, ?_, ?_⟩⟩
      · constructor
        · exact nodup_append_singleton inv.hashesNodup hfresh
        · show sumCounts (pre ++ [_]) = (w.db.urlHashes ++ [hash url]).length
          rw [sumCounts_append]
          have hsum := inv.sumEq
          rw [hsplit, sumCounts_append] at hsum
          simp only [sumCounts, List.map_cons, List.map_nil, List.sum_cons,
            List.sum_nil, List.length_append, List.length_singleton] at *
          omega
        · show partNames (pre ++ [_]) = canonNames cfg (pre ++ [_]).length
          have := inv.namesCanon
          rw [hsplit] at this
          rw [partNames_append] at this ⊢
          rw [List.length_append] at this ⊢
          simpa [partNames] using this
        · exact Or.inr ⟨pre, _, rfl, hcur⟩
        · intro kv hkv
          rcases fsWrite_keys _ _ _ kv hkv with h | h
          · show kv.1 ∈ partNames (pre ++ [_])
            rw [partNames_append, h, hcur]
            simp [partNames]
          · obtain ⟨kv', hkv', hfst⟩ := List.mem_map.mp h
            have hd := inv.partsDom kv' hkv'
            rw [hsplit] at hd
            show kv.1 ∈ partNames (pre ++ [_])
            rw [partNames_append] at hd ⊢
            rw [← hfst]
            simpa [partNames] using hd
        · intro info hinfo
          rcases List.mem_append.mp hinfo with hin | hin
          · refine fileMatch_congr ?_ (inv.filesMatch info (by rw [hsplit]; simp [hin]))
            exact fsRead_fsWrite_ne _ _ _ _ (hprene info hin)
          · rw [List.mem_singleton.mp hin]
            refine Or.inr
              ⟨[{ loc := url, lastMod := now, changefreq := cf, priority := p }],
                ?_, by simp⟩
            show fsRead (fsWrite w.parts w.db.currentSitemap _) e.filename = _
            rw [← hcur]
            exact fsRead_fsWrite_self _ _ _
      · show pre ++ [_] = pre ++ [{ e with urlCount := e.urlCount + 1, lastMod := now }]
        simp [hcnt]
      · rfl
    · -- readable file with exactly urlCount entries
      have hload : LoadSitemap w.parts w.db.currentSitemap = .ok ulist := by
        rw [hcur] at *
        simp [LoadSitemap, hrd]
      have hupd : updateFirst w.db.currentSitemap (ulist.length + 1) now (pre ++ [e]) =
          pre ++ [{ e with urlCount := ulist.length + 1, lastMod := now }] := by
        rw [updateFirst_skip _ _ _ _ _ hprene hcur.symm]
      simp only [AddURL, hal, Bool.not_true, Bool.false_eq_true, if_false,
        hcont, hg, hload, UpdateSitemapInfo, List.length_append,
        List.length_cons, List.length_nil, Nat.zero_add, hsplit, hupd]
      refine ⟨_, rfl, ?_, by simp, Or.inl ⟨pre, e, rfl, hcur, hlt, ?_, ?_⟩⟩
      · constructor
        · exact nodup_append_singleton inv.hashesNodup hfresh
        · show sumCounts (pre ++ [_]) = (w.db.urlHashes ++ [hash url]).length
          rw [sumCounts_append]
          have hsum := inv.sumEq
          rw [hsplit, sumCounts_append] at hsum
          simp only [sumCounts, List.map_cons, List.map_nil, List.sum_cons,
            List.sum_nil, List.length_append, List.length_singleton] at *
          omega
        · show partNames (pre ++ [_]) = canonNames cfg (pre ++ [_]).length
          have := inv.namesCanon
          rw [hsplit] at this
          rw [partNames_append] at this ⊢
          rw [List.length_append] at this ⊢
          simpa [partNames] using this
        · exact Or.inr ⟨pre, _, rfl, hcur⟩
        · intro kv hkv
          rcases fsWrite_keys _ _ _ kv hkv with h | h
          · show kv.1 ∈ partNames (pre ++ [_])
            rw [partNames_append, h, hcur]
            simp [partNames]
          · obtain ⟨kv', hkv', hfst⟩ := List.mem_map.mp h
            have hd := inv.partsDom kv' hkv'
            rw [hsplit] at hd
            show kv.1 ∈ partNames (pre ++ [_])
            rw [partNames_append] at hd ⊢
            rw [← hfst]
            simpa [partNames] using hd
        · intro info hinfo
          rcases List.mem_append.mp hinfo with hin | hin
          · refine fileMatch_congr ?_ (inv.filesMatch info (by rw [hsplit]; simp [hin]))
            exact fsRead_fsWrite_ne _ _ _ _ (hprene info hin)
          · rw [List.mem_singleton.mp hin]
            refine Or.inr
              ⟨ulist ++ [{ loc := url, lastMod := now, changefreq := cf, priority := p }],
                ?_, by simp⟩
            show fsRead (fsWrite w.parts w.db.currentSitemap _) e.filename = _
            rw [← hcur]
            exact fsRead_fsWrite_self _ _ _
      · show pre ++ [_] = pre ++ [{ e with urlCount := e.urlCount + 1, lastMod := now }]
        simp [hlen]
      · rfl

theorem inv_fresh_name (cfg : Config) (w : World) (inv : StoreInv cfg w) :
    ∀ x ∈ w.db.sitemaps,
      x.filename ≠ mkSitemapName cfg (w.db.sitemaps.length + 1) := by
  intro x hx heq
  have hmem : x.filename ∈ partNames w.db.sitemaps :=
    List.mem_map.mpr ⟨x, hx, rfl⟩
  rw [inv.namesCanon, heq] at hmem
  exact mkSitemapName_not_mem_canon cfg _ (by omega) hmem

/-- The create command preserves the store invariant: it only appends a
zero-count partition record (no partition file is written). -/
theorem createCmd_inv (cfg : Config) (w : World) (now : Nat)
    (inv : StoreInv cfg w) : StoreInv cfg (CreateCmd cfg w now) := by
  have hdb : (CreateCmd cfg w now).db.sitemaps = w.db.sitemaps ++
      [({ filename := mkSitemapName cfg (w.db.sitemaps.length + 1),
          urlCount := 0, lastMod := now } : SitemapInfo)] := rfl
  have hhash : (CreateCmd cfg w now).db.urlHashes = w.db.urlHashes := rfl
  have hcur : (CreateCmd cfg w now).db.currentSitemap =
      mkSitemapName cfg (w.db.sitemaps.length + 1) := rfl
  have hparts : (CreateCmd cfg w now).parts = w.parts := rfl
  constructor
  · rw [hhash]; exact inv.hashesNodup
  · rw [hdb, hhash, sumCounts_append]
    have hs := inv.sumEq
    simp only [sumCounts, List.map_cons, List.map_nil, List.sum_cons,
      List.sum_nil] at hs ⊢
    omega
  · rw [hdb, partNames_append, List.length_append, List.length_singleton,
      canonNames_succ, inv.namesCanon]
    rfl
  · rw [hdb, hcur]
    exact Or.inr ⟨w.db.sitemaps, _, rfl, rfl⟩
  · intro kv hkv
    rw [hparts] at hkv
    rw [hdb, partNames_append]
    exact List.mem_append_left _ (inv.partsDom kv hkv)
  · intro info hinfo
    rw [hdb] at hinfo
    rw [hparts]
    rcases List.mem_append.mp hinfo with hin | hin
    · exact inv.filesMatch info hin
    · rw [List.mem_singleton.mp hin]
      refine Or.inl ⟨?_, rfl⟩
      apply fsRead_eq_none
      intro kv hkv hk
      have hmem := inv.partsDom kv hkv
      rw [hk, inv.namesCanon] at hmem
      exact mkSitemapName_not_mem_canon cfg _ (by omega) hmem

/-- Every reachable state satisfies the store invariant. -/
theorem reachable_inv (cfg : Config) (rules : List String)
    (hash : String → String) (w : World)
    (h : Reachable cfg rules hash w) : StoreInv cfg w := by
  induction h with
  | init now => exact storeInv_fresh cfg now
  | add url cf p now hr heq ih =>
    rename_i w₀ w₁
    obtain ⟨hal, hfresh, -, -⟩ := addURL_ok_fields _ _ _ _ _ _ _ _ _ heq
    obtain ⟨w₂, heq₂, inv₂, -, -⟩ :=
      addURL_ok_master _ _ _ _ _ _ _ now ih hal hfresh
    have : w₁ = w₂ := by
      rw [heq] at heq₂
      exact (Prod.mk.injEq _ _ _ _ ▸ heq₂).1
    rw [this]
    exact inv₂
  | create now hr ih => exact createCmd_inv _ _ _ ih

/-- The shape of the entry counts along add-only executions: every
partition but the last is exactly full, the last holds between 1 and
CAPACITY entries. -/
def CountsPattern (w : World) : Prop :=
  w.db.sitemaps = [] ∨
  ∃ k c, w.db.sitemaps.map (fun i => i.urlCount) =
      List.replicate k MAX_URLS_PER_SITEMAP ++ [c] ∧
    1 ≤ c ∧ c ≤ MAX_URLS_PER_SITEMAP

theorem counts_append_singleton (l : List SitemapInfo) (e : SitemapInfo) :
    (l ++ [e]).map (fun i => i.urlCount) =
      l.map (fun i => i.urlCount) ++ [e.urlCount] := by
  simp

/-- One successful add preserves the counts pattern. -/
theorem pattern_step (cfg : Config) (rules : List String)
    (hash : String → String) (w w' : World) (url cf : String) (p : Rat)
    (now : Nat) (inv : StoreInv cfg w) (pat : CountsPattern w)
    (heq : AddURL cfg rules hash w url cf p now = (w', none)) :
    CountsPattern w' := by
  obtain ⟨hal, hfresh, -, -⟩ := addURL_ok_fields _ _ _ _ _ _ _ _ _ heq
  obtain ⟨w₂, heq₂, -, -, hbr⟩ :=
    addURL_ok_master _ _ _ _ _ _ _ now inv hal hfresh
  have hw : w' = w₂ := by
    rw [heq] at heq₂
    exact (Prod.mk.injEq _ _ _ _ ▸ heq₂).1
  subst hw
  rcases hbr with ⟨pre, e, hsplit, hcur, hlt, hnew, -⟩ | ⟨hcond, hnew, -⟩
  · -- the last partition absorbed the entry
    right
    rcases pat with hnil | ⟨k, c, hcounts, hc1, hc2⟩
    · rw [hnil] at hsplit
      exact absurd hsplit.symm (by simp)
    · rw [hsplit, counts_append_singleton] at hcounts
      obtain ⟨hpre, hec⟩ := List.append_inj' hcounts (by simp)
      have hecc : e.urlCount = c := by simpa using hec
      refine ⟨k, c + 1, ?_, by omega, by omega⟩
      rw [hnew, counts_append_singleton, hpre, hecc]
  · -- a fresh partition absorbed the entry
    right
    rcases hcond with hnil | ⟨pre, e, hsplit, hcur, hge⟩
    · refine ⟨0, 1, ?_, by omega, ?_⟩
      · rw [hnew, hnil]
        simp
      · show 1 ≤ MAX_URLS_PER_SITEMAP
        norm_num [MAX_URLS_PER_SITEMAP]
    · rcases pat with hnil | ⟨k, c, hcounts, hc1, hc2⟩
      · rw [hnil] at hsplit
        exact absurd hsplit.symm (by simp)
      · rw [hsplit, counts_append_singleton] at hcounts
        obtain ⟨hpre, hec⟩ := List.append_inj' hcounts (by simp)
        have hecc : e.urlCount = c := by simpa using hec
        have hcap : c = MAX_URLS_PER_SITEMAP := by omega
        refine ⟨k + 1, 1, ?_, by omega, ?_⟩
        · rw [hnew, counts_append_singleton, hsplit, counts_append_singleton,
            hpre, hecc, hcap]
          simp [List.replicate_succ']
        · show 1 ≤ MAX_URLS_PER_SITEMAP
          norm_num [MAX_URLS_PER_SITEMAP]

/-- Along add-only executions the invariant and the counts pattern hold. -/
theorem reachableAdd_inv (cfg : Config) (rules : List String)
    (hash : String → String) (w : World)
    (h : ReachableAdd cfg rules hash w) : StoreInv cfg w ∧ CountsPattern w := by
  induction h with
  | init now => exact ⟨storeInv_fresh cfg now, Or.inl rfl⟩
  | add url cf p now hr heq ih =>
    rename_i w₀ w₁
    obtain ⟨inv, pat⟩ := ih
    obtain ⟨hal, hfresh, -, -⟩ := addURL_ok_fields _ _ _ _ _ _ _ _ _ heq
    obtain ⟨w₂, heq₂, inv₂, -, -⟩ :=
      addURL_ok_master _ _ _ _ _ _ _ now inv hal hfresh
    have hw : w₁ = w₂ := by
      rw [heq] at heq₂
      exact (Prod.mk.injEq _ _ _ _ ▸ heq₂).1
    refine ⟨hw ▸ inv₂, ?_⟩
    exact pattern_step cfg rules hash w₀ w₁ url cf p now inv pat heq

/-- Running addAll on a list of allowed URLs with pairwise-fresh hashes
succeeds, preserves the invariant and the counts pattern, and appends
exactly the hashes of the URLs. -/
theorem addAll_run (cfg : Config) (rules : List String)
    (hash : String → String) (cf : String) (p : Rat) (now : Nat) :
    ∀ (urls : List String) (w : World), StoreInv cfg w → CountsPattern w →
    (∀ u ∈ urls, IsURLAllowed cfg rules u = true) →
    (w.db.urlHashes ++ urls.map hash).Nodup →
    ∃ w', addAll cfg rules hash cf p now w urls = some w' ∧
      StoreInv cfg w' ∧ CountsPattern w' ∧
      w'.db.urlHashes = w.db.urlHashes ++ urls.map hash := by
  intro urls
  induction urls with
  | nil =>
    intro w inv pat hall hnod
    exact ⟨w, rfl, inv, pat, by simp⟩
  | cons u rest ih =>
    intro w inv pat hall hnod
    have hal : IsURLAllowed cfg rules u = true := hall u (by simp)
    have hfresh : hash u ∉ w.db.urlHashes := by
      intro hmem
      rw [List.map_cons, List.nodup_append] at hnod
      exact hnod.2.2 hmem (by simp)
    obtain ⟨w₁, heq, inv₁, hh₁, -⟩ :=
      addURL_ok_master cfg rules hash w u cf p now inv hal hfresh
    have pat₁ : CountsPattern w₁ :=
      pattern_step cfg rules hash w w₁ u cf p now inv pat heq
    have hnod₁ : (w₁.db.urlHashes ++ rest.map hash).Nodup := by
      rw [hh₁, List.append_assoc]
      simpa using hnod
    obtain ⟨w₂, hrun, inv₂, pat₂, hh₂⟩ := ih w₁ inv₁ pat₁
      (fun v hv => hall v (by simp [hv])) hnod₁
    refine ⟨w₂, ?_, inv₂, pat₂, ?_⟩
    · simp only [addAll, heq]
      exact hrun
    · rw [hh₂, hh₁, List.append_assoc]
      simp

/-! ### Concrete executions used by witnesses and counterexamples -/

/-- One concrete successful add on a fresh store (robots on, no rules). -/
def addW1 : World × Option AddError :=
  AddURL cfg0 [] idHash (freshWorld 0) "https://example.com/a" "weekly" 0 0

theorem addW1_ok : addW1 = (addW1.1, none) := rfl

/-- A store whose current partition document is present but corrupt. -/
def corruptWorld : World :=
  { db := { sitemaps := [{ filename := "sitemap_1.xml", urlCount := 1, lastMod := 0 }]
            urlHashes := ["x"]
            currentSitemap := "sitemap_1.xml"
            lastUpdated := 0 }
    parts := [("sitemap_1.xml", .corrupt)]
    dbFile := none
    indexFile := none }

/-! ### The claims -/

/-- C1: the claim is right about the intended policy but the code is
wrong: IsURLAllowed tests each disallowed path prefix against the full
URL string, so the robots path "/private" can never match an absolute
URL (it starts with "https://").  At the spec's own failing input the
add succeeds instead of being rejected with PolicyRejected; the
accompanying public-page example does succeed. -/
theorem c1_policy_check_never_fires_on_absolute_urls :
    hasPrefixB "https://example.com/private/page" "/private" = false ∧
    IsURLAllowed cfg0 ["/private"] "https://example.com/private/page" = true ∧
    (AddURL cfg0 ["/private"] idHash (freshWorld 0)
      "https://example.com/private/page" "weekly" 0 0).2 = none ∧
    (AddURL cfg0 ["/private"] idHash (freshWorld 0)
      "https://example.com/public/page" "weekly" 0 0).2 = none ∧
    hasPrefixB "/private/page" "/private" = true := by
  exact ⟨by decide, by decide, rfl, rfl, by decide⟩

/-- C3: if an add of some URL succeeds, a second add of the same URL
(against the resulting state, with any changefreq/priority/time) is
rejected with DuplicateURL, the state component of the result is the
input state, and in particular the hash count and every partition's
entry count are unchanged. -/
theorem c3_second_add_duplicate (cfg : Config) (rules : List String)
    (hash : String → String) (w w' : World) (url cf : String) (p : Rat)
    (now : Nat) (cf' : String) (p' : Rat) (now' : Nat)
    (h : AddURL cfg rules hash w url cf p now = (w', none)) :
    AddURL cfg rules hash w' url cf' p' now' = (w', some .duplicateURL) ∧
    (AddURL cfg rules hash w' url cf' p' now').1.db.urlHashes.length =
      w'.db.urlHashes.length ∧
    (AddURL cfg rules hash w' url cf' p' now').1.db.sitemaps.map
      (fun i => i.urlCount) = w'.db.sitemaps.map (fun i => i.urlCount) := by
  obtain ⟨hal, hfresh, hh, -⟩ := addURL_ok_fields _ _ _ _ _ _ _ _ _ h
  have hmem : hash url ∈ w'.db.urlHashes := by rw [hh]; simp
  have hcont : w'.db.urlHashes.contains (hash url) = true := List.elem_iff.mpr hmem
  have hdup : AddURL cfg rules hash w' url cf' p' now' = (w', some .duplicateURL) := by
    simp only [AddURL, hal, Bool.not_true, Bool.false_eq_true, if_false,
      hcont, if_true]
  exact ⟨hdup, by rw [hdup], by rw [hdup]⟩

theorem c3_witness :
    AddURL cfg0 [] idHash addW1.1 "https://example.com/a" "daily" 1 7 =
      (addW1.1, some .duplicateURL) :=
  (c3_second_add_duplicate cfg0 [] idHash (freshWorld 0) addW1.1
    "https://example.com/a" "weekly" 0 0 "daily" 1 7 addW1_ok).1

/-- C5: in every state reachable from a fresh empty store by successful
add and create commands, the sum of entry_count over all partitions
equals the number of hashes in seen_hashes (which holds no duplicates). -/
theorem c5_sum_of_counts_eq_seen_hashes (cfg : Config) (rules : List String)
    (hash : String → String) (w : World) (h : Reachable cfg rules hash w) :
    sumCounts w.db.sitemaps = w.db.urlHashes.length ∧
    w.db.urlHashes.Nodup :=
  ⟨(reachable_inv cfg rules hash w h).sumEq,
   (reachable_inv cfg rules hash w h).hashesNodup⟩

theorem c5_witness :
    sumCounts addW1.1.db.sitemaps = addW1.1.db.urlHashes.length ∧
    addW1.1.db.urlHashes.Nodup :=
  c5_sum_of_counts_eq_seen_hashes cfg0 [] idHash addW1.1
    (Reachable.add "https://example.com/a" "weekly" 0 0 (Reachable.init 0) addW1_ok)

/-- C7: after every successful add, the regenerated index document has
exactly one entry per partition, in partition order, and each entry's
location is the base URL (one trailing slash stripped) ++ "/" ++ the
partition's filename; its date is the partition's last-modified value. -/
theorem c7_index_completeness (cfg : Config) (rules : List String)
    (hash : String → String) (w w' : World) (url cf : String) (p : Rat)
    (now : Nat) (h : AddURL cfg rules hash w url cf p now = (w', none)) :
    ∃ idx, w'.indexFile = some idx ∧
      idx.length = w'.db.sitemaps.length ∧
      ∀ k (hk : k < idx.length) (hk' : k < w'.db.sitemaps.length),
        (idx.get ⟨k, hk⟩).loc =
          trimSlash cfg.baseUrl ++ "/" ++ (w'.db.sitemaps.get ⟨k, hk'⟩).filename ∧
        (idx.get ⟨k, hk⟩).lastMod = (w'.db.sitemaps.get ⟨k, hk'⟩).lastMod := by
  obtain ⟨-, -, -, hidx⟩ := addURL_ok_fields _ _ _ _ _ _ _ _ _ h
  refine ⟨GenerateSitemapIndex cfg w'.db, hidx, by simp [GenerateSitemapIndex], ?_⟩
  intro k hk hk'
  constructor <;> simp [GenerateSitemapIndex]

theorem c7_witness :
    ∃ idx, addW1.1.indexFile = some idx ∧
      idx.length = addW1.1.db.sitemaps.length ∧
      ∀ k (hk : k < idx.length) (hk' : k < addW1.1.db.sitemaps.length),
        (idx.get ⟨k, hk⟩).loc =
          trimSlash cfg0.baseUrl ++ "/" ++
            (addW1.1.db.sitemaps.get ⟨k, hk'⟩).filename ∧
        (idx.get ⟨k, hk⟩).lastMod = (addW1.1.db.sitemaps.get ⟨k, hk'⟩).lastMod :=
  c7_index_completeness cfg0 [] idHash (freshWorld 0) addW1.1
    "https://example.com/a" "weekly" 0 0 addW1_ok

/-- C8: an add that fails does so with PolicyRejected or DuplicateURL —
both happen before the partition-append step — and leaves every on-disk
artifact (Entry Store file, partition documents, index document)
unchanged. -/
theorem c8_rejection_leaves_disk_untouched (cfg : Config)
    (rules : List String) (hash : String → String) (w : World)
    (url cf : String) (p : Rat) (now : Nat) (e : AddError)
    (h : (AddURL cfg rules hash w url cf p now).2 = some e) :
    (e = .policyRejected ∨ e = .duplicateURL) ∧
    (AddURL cfg rules hash w url cf p now).1.dbFile = w.dbFile ∧
    (AddURL cfg rules hash w url cf p now).1.parts = w.parts ∧
    (AddURL cfg rules hash w url cf p now).1.indexFile = w.indexFile := by
  by_cases hal : IsURLAllowed cfg rules url
  · by_cases hcont : w.db.urlHashes.contains (hash url)
    · have hdup : AddURL cfg rules hash w url cf p now =
          (w, some .duplicateURL) := by
        simp only [AddURL, hal, Bool.not_true, Bool.false_eq_true, if_false,
          hcont, if_true]
      rw [hdup] at h
      refine ⟨Or.inr ?_, by rw [hdup], by rw [hdup], by rw [hdup]⟩
      have : some AddError.duplicateURL = some e := h
      exact (Option.some.injEq _ _ ▸ this).symm
    · exfalso
      have hc : w.db.urlHashes.contains (hash url) = false := by
        simpa using hcont
      simp only [AddURL, hal, Bool.not_true, Bool.false_eq_true, if_false,
        hc] at h
      exact Option.noConfusion h
  · have hal' : IsURLAllowed cfg rules url = false := by simpa using hal
    have hpol : AddURL cfg rules hash w url cf p now =
        (w, some .policyRejected) := by
      simp only [AddURL, hal', Bool.not_false, if_true]
    rw [hpol] at h
    refine ⟨Or.inl ?_, by rw [hpol], by rw [hpol], by rw [hpol]⟩
    have : some AddError.policyRejected = some e := h
    exact (Option.some.injEq _ _ ▸ this).symm

theorem c8_witness :
    ((AddURL cfg0 ["h"] idHash (freshWorld 0) "hello" "weekly" 0 0).2 =
        some .policyRejected) ∧
    (AddURL cfg0 ["h"] idHash (freshWorld 0) "hello" "weekly" 0 0).1.dbFile =
      (freshWorld 0).dbFile ∧
    (AddURL cfg0 ["h"] idHash (freshWorld 0) "hello" "weekly" 0 0).1.parts =
      (freshWorld 0).parts ∧
    (AddURL cfg0 ["h"] idHash (freshWorld 0) "hello" "weekly" 0 0).1.indexFile =
      (freshWorld 0).indexFile := by
  have h := c8_rejection_leaves_disk_untouched cfg0 ["h"] idHash (freshWorld 0)
    "hello" "weekly" 0 0 .policyRejected rfl
  exact ⟨rfl, h.2.1, h.2.2.1, h.2.2.2⟩

/-- C9: persisting the Entry Store and loading it back yields the same
set of seen hashes (the file stores them sorted), the identical partition
metadata sequence, and the identical current-partition pointer. -/
theorem c9_save_load_roundtrip (db : Database) (now loadNow : Nat) :
    (∀ h, h ∈ (LoadDB (some (SaveDB db now)) loadNow).urlHashes ↔
      h ∈ db.urlHashes) ∧
    (LoadDB (some (SaveDB db now)) loadNow).sitemaps = db.sitemaps ∧
    (LoadDB (some (SaveDB db now)) loadNow).currentSitemap =
      db.currentSitemap := by
  refine ⟨?_, rfl, rfl⟩
  intro h
  have h1 : ((sortStrings db.urlHashes).map (fun x => (x, true))).filter
      (fun kv => kv.2) = (sortStrings db.urlHashes).map (fun x => (x, true)) := by
    apply List.filter_eq_self.mpr
    intro kv hkv
    obtain ⟨x, -, rfl⟩ := List.mem_map.mp hkv
    rfl
  show h ∈ (((sortStrings db.urlHashes).map (fun x => (x, true))).filter
      (fun kv => kv.2)).map (fun kv => kv.1) ↔ h ∈ db.urlHashes
  rw [h1, List.map_map]
  simp [Function.comp, mem_sortStrings]

/-- C10: on a reachable store, the create command appends a fresh
zero-count partition record, persists the store, regenerates the index —
whose last entry points at the new partition's filename — but writes no
partition document: the partition files on disk are untouched and no
file exists under the new name. -/
theorem c10_create_writes_no_partition_file (cfg : Config)
    (rules : List String) (hash : String → String) (w : World)
    (h : Reachable cfg rules hash w) (now : Nat) :
    (CreateCmd cfg w now).parts = w.parts ∧
    (CreateCmd cfg w now).db.sitemaps = w.db.sitemaps ++
      [{ filename := mkSitemapName cfg (w.db.sitemaps.length + 1),
         urlCount := 0, lastMod := now }] ∧
    (CreateCmd cfg w now).dbFile =
      some (SaveDB (CreateCmd cfg w now).db now) ∧
    (∃ idx, (CreateCmd cfg w now).indexFile = some idx ∧
      idx.length = w.db.sitemaps.length + 1 ∧
      idx.getLast? = some
        { loc := trimSlash cfg.baseUrl ++ "/" ++
            mkSitemapName cfg (w.db.sitemaps.length + 1), lastMod := now }) ∧
    fsRead (CreateCmd cfg w now).parts
      (mkSitemapName cfg (w.db.sitemaps.length + 1)) = none := by
  have inv := reachable_inv cfg rules hash w h
  have hnone : fsRead w.parts
      (mkSitemapName cfg (w.db.sitemaps.length + 1)) = none := by
    apply fsRead_eq_none
    intro kv hkv hk
    have hmem := inv.partsDom kv hkv
    rw [hk, inv.namesCanon] at hmem
    exact mkSitemapName_not_mem_canon cfg _ (by omega) hmem
  refine ⟨rfl, rfl, rfl, ?_, hnone⟩
  refine ⟨GenerateSitemapIndex cfg (CreateCmd cfg w now).db, rfl, ?_, ?_⟩
  · simp [GenerateSitemapIndex, CreateCmd, CreateNewSitemap]
  · show ((w.db.sitemaps ++
      [({ filename := mkSitemapName cfg (w.db.sitemaps.length + 1),
          urlCount := 0, lastMod := now } : SitemapInfo)]).map _).getLast? = _
    rw [List.map_append]
    simp

theorem c10_witness :
    (CreateCmd cfg0 (freshWorld 0) 0).parts = (freshWorld 0).parts ∧
    (CreateCmd cfg0 (freshWorld 0) 0).db.sitemaps =
      (freshWorld 0).db.sitemaps ++
      [{ filename := mkSitemapName cfg0 ((freshWorld 0).db.sitemaps.length + 1),
         urlCount := 0, lastMod := 0 }] ∧
    (CreateCmd cfg0 (freshWorld 0) 0).dbFile =
      some (SaveDB (CreateCmd cfg0 (freshWorld 0) 0).db 0) ∧
    (∃ idx, (CreateCmd cfg0 (freshWorld 0) 0).indexFile = some idx ∧
      idx.length = (freshWorld 0).db.sitemaps.length + 1 ∧
      idx.getLast? = some
        { loc := trimSlash cfg0.baseUrl ++ "/" ++
            mkSitemapName cfg0 ((freshWorld 0).db.sitemaps.length + 1),
          lastMod := 0 }) ∧
    fsRead (CreateCmd cfg0 (freshWorld 0) 0).parts
      (mkSitemapName cfg0 ((freshWorld 0).db.sitemaps.length + 1)) = none :=
  c10_create_writes_no_partition_file cfg0 [] idHash (freshWorld 0)
    (Reachable.init 0) 0

/-- C4 (amended): restricted to states reachable by successful add
commands alone, at most one partition has entry_count below CAPACITY and
any such partition is the current one.  (The original claim, which also
allowed create commands, is refuted by c4_counterexample: an explicit
create freezes a partition that is not yet full.) -/
theorem c4_amended_only_current_unfilled (cfg : Config)
    (rules : List String) (hash : String → String) (w : World)
    (h : ReachableAdd cfg rules hash w) :
    (∀ info ∈ w.db.sitemaps, info.urlCount < MAX_URLS_PER_SITEMAP →
      info.filename = w.db.currentSitemap) ∧
    (w.db.sitemaps.filter
      (fun info => decide (info.urlCount < MAX_URLS_PER_SITEMAP))).length ≤ 1 := by
  obtain ⟨inv, pat⟩ := reachableAdd_inv cfg rules hash w h
  rcases pat with hnil | ⟨k, c, hcounts, -, -⟩
  · rw [hnil]
    exact ⟨by simp, by simp⟩
  · rcases inv.currentLast with ⟨hnil2, -⟩ | ⟨pre, e, hsplit, hcur⟩
    · rw [hnil2] at hcounts
      exact absurd hcounts.symm (by simp)
    · rw [hsplit, counts_append_singleton] at hcounts
      obtain ⟨hpre, -⟩ := List.append_inj' hcounts (by simp)
      have hfull : ∀ x ∈ pre, x.urlCount = MAX_URLS_PER_SITEMAP := by
        intro x hx
        have hx2 : x.urlCount ∈ pre.map (fun i => i.urlCount) :=
          List.mem_map.mpr ⟨x, hx, rfl⟩
        rw [hpre] at hx2
        exact List.eq_of_mem_replicate hx2
      constructor
      · intro info hmem hlt
        rw [hsplit] at hmem
        rcases List.mem_append.mp hmem with hin | hin
        · exact absurd (hfull info hin) (by omega)
        · rw [List.mem_singleton.mp hin, hcur]
      · rw [hsplit, List.filter_append]
        have hempty : pre.filter
            (fun info => decide (info.urlCount < MAX_URLS_PER_SITEMAP)) = [] := by
          apply List.filter_eq_nil_iff.mpr
          intro a ha
          simp [hfull a ha]
        rw [hempty, List.nil_append]
        calc (List.filter _ [e]).length ≤ [e].length := List.length_filter_le _ _
          _ = 1 := rfl

theorem c4_witness :
    (∀ info ∈ addW1.1.db.sitemaps,
      info.urlCount < MAX_URLS_PER_SITEMAP →
      info.filename = addW1.1.db.currentSitemap) ∧
    (addW1.1.db.sitemaps.filter
      (fun info => decide (info.urlCount < MAX_URLS_PER_SITEMAP))).length ≤ 1 :=
  c4_amended_only_current_unfilled cfg0 [] idHash addW1.1
    (ReachableAdd.add "https://example.com/a" "weekly" 0 0
      (ReachableAdd.init 0) addW1_ok)

/-- C4 (as stated, refuted): with create commands admitted, a reachable
state can hold a non-current partition with fewer than CAPACITY entries:
add one URL (partition 1 has 1 entry), then run create (partition 2
becomes current); partition 1 stays at 1 < 50000 yet is not current. -/
theorem c4_counterexample :
    ¬ (∀ (cfg : Config) (rules : List String) (hash : String → String)
        (w : World), Reachable cfg rules hash w →
        ∀ info ∈ w.db.sitemaps, info.urlCount < MAX_URLS_PER_SITEMAP →
          info.filename = w.db.currentSitemap) := by
  intro hclaim
  have hreach : Reachable cfg0 [] idHash (CreateCmd cfg0 addW1.1 0) :=
    Reachable.create 0
      (Reachable.add "https://example.com/a" "weekly" 0 0
        (Reachable.init 0) addW1_ok)
  have hmem : ({ filename := "sitemap_1.xml", urlCount := 1, lastMod := 0 } :
      SitemapInfo) ∈ (CreateCmd cfg0 addW1.1 0).db.sitemaps := by decide
  have hbad := hclaim cfg0 [] idHash _ hreach _ hmem (by decide)
  exact absurd hbad (by decide)

/-- C6 (amended): LoadSitemap substitutes an empty document only when the
partition file is absent and reports an error when the file is corrupt or
unreadable — but AddURL swallows that error: with the current partition
document corrupt, the add still succeeds, writing a document that holds
only the new entry. -/
theorem c6_amended_load_error_swallowed (cfg : Config) (rules : List String)
    (hash : String → String) (w : World) (url cf : String) (p : Rat)
    (now : Nat) (hal : IsURLAllowed cfg rules url = true)
    (hfresh : w.db.urlHashes.contains (hash url) = false)
    (hflag : (w.db.currentSitemap == "" || NeedNewSitemap w.db) = false)
    (hcorrupt : fsRead w.parts w.db.currentSitemap = some .corrupt) :
    (∀ parts fn, fsRead parts fn = none → LoadSitemap parts fn = .ok []) ∧
    (∀ parts fn, fsRead parts fn = some .corrupt →
      LoadSitemap parts fn = .error ()) ∧
    LoadSitemap w.parts w.db.currentSitemap = .error () ∧
    (AddURL cfg rules hash w url cf p now).2 = none ∧
    fsRead (AddURL cfg rules hash w url cf p now).1.parts
        w.db.currentSitemap =
      some (.content [{ loc := url, lastMod := now, changefreq := cf,
                        priority := p }]) := by
  have hload : LoadSitemap w.parts w.db.currentSitemap = .error () := by
    simp [LoadSitemap, hcorrupt]
  have hg : GetCurrentSitemap cfg w.db now = (w.db.currentSitemap, w.db) := by
    rw [GetCurrentSitemap, if_neg (by simp [hflag])]
  refine ⟨fun parts fn hr => by simp [LoadSitemap, hr],
          fun parts fn hr => by simp [LoadSitemap, hr],
          hload, ?_, ?_⟩
  · simp only [AddURL, hal, Bool.not_true, Bool.false_eq_true, if_false,
      hfresh, hg, hload]
  · simp only [AddURL, hal, Bool.not_true, Bool.false_eq_true, if_false,
      hfresh, hg, hload]
    simpa using fsRead_fsWrite_self w.parts w.db.currentSitemap
      [{ loc := url, lastMod := now, changefreq := cf, priority := p }]

theorem c6_witness :
    (∀ parts fn, fsRead parts fn = none → LoadSitemap parts fn = .ok []) ∧
    (∀ parts fn, fsRead parts fn = some .corrupt →
      LoadSitemap parts fn = .error ()) ∧
    LoadSitemap corruptWorld.parts corruptWorld.db.currentSitemap =
      .error () ∧
    (AddURL cfg0 [] idHash corruptWorld
      "https://example.com/b" "weekly" 0 0).2 = none ∧
    fsRead (AddURL cfg0 [] idHash corruptWorld
        "https://example.com/b" "weekly" 0 0).1.parts
        corruptWorld.db.currentSitemap =
      some (.content [{ loc := "https://example.com/b", lastMod := 0,
                        changefreq := "weekly", priority := 0 }]) :=
  c6_amended_load_error_swallowed cfg0 [] idHash corruptWorld
    "https://example.com/b" "weekly" 0 0 rfl rfl rfl rfl

/-- C6 (as stated, refuted): at a store whose current partition document
is present but corrupt, the add does not fail with any partition I/O
error — AddURL substitutes a fresh empty document and reports success. -/
theorem c6_counterexample :
    fsRead corruptWorld.parts corruptWorld.db.currentSitemap =
      some .corrupt ∧
    LoadSitemap corruptWorld.parts corruptWorld.db.currentSitemap =
      .error () ∧
    (AddURL cfg0 [] idHash corruptWorld
      "https://example.com/b" "weekly" 0 0).2 = none :=
  ⟨rfl, rfl, rfl⟩

/-- 50001 pairwise-distinct URL strings (distinct lengths). -/
def bigURLs : List String :=
  (List.range (MAX_URLS_PER_SITEMAP + 1)).map
    (fun i => String.mk (List.replicate (i + 1) 'a'))

theorem bigURLs_length : bigURLs.length = MAX_URLS_PER_SITEMAP + 1 := by
  simp [bigURLs]

theorem bigURLs_nodup : (bigURLs.map idHash).Nodup := by
  have hid : bigURLs.map idHash = bigURLs := by
    rw [show idHash = id from rfl, List.map_id]
  rw [hid]
  unfold bigURLs
  refine List.Nodup.map ?_ (List.nodup_range _)
  intro a b hab
  have := congrArg (fun s => s.data.length) hab
  simpa using this

/-- C2: from a fresh store, adding CAPACITY + 1 = 50001 distinct accepted
URLs (all allowed, hashes pairwise distinct) succeeds and yields exactly
two partitions whose entry counts are [50000, 1]; moreover along
add-only executions an add allocates a new partition exactly when no
partition exists or the current partition's entry count has reached
CAPACITY. -/
theorem c2_capacity_rollover (cfg : Config) (rules : List String)
    (hash : String → String) (cf : String) (p : Rat) (now t0 : Nat) :
    (∀ urls : List String, urls.length = MAX_URLS_PER_SITEMAP + 1 →
      (urls.map hash).Nodup →
      (∀ u ∈ urls, IsURLAllowed cfg rules u = true) →
      ∃ w', addAll cfg rules hash cf p now (freshWorld t0) urls = some w' ∧
        w'.db.sitemaps.length = 2 ∧
        w'.db.sitemaps.map (fun i => i.urlCount) = [MAX_URLS_PER_SITEMAP, 1]) ∧
    (∀ w w' url, ReachableAdd cfg rules hash w →
      AddURL cfg rules hash w url cf p now = (w', none) →
      (w'.db.sitemaps.length = w.db.sitemaps.length + 1 ↔
        (w.db.sitemaps = [] ∨ ∃ info ∈ w.db.sitemaps,
          info.filename = w.db.currentSitemap ∧
          MAX_URLS_PER_SITEMAP ≤ info.urlCount))) := by
  constructor
  · intro urls hlen hnod hall
    obtain ⟨w', hrun, inv', pat', hh⟩ := addAll_run cfg rules hash cf p now
      urls (freshWorld t0) (storeInv_fresh cfg t0) (Or.inl rfl) hall
      (by simpa [freshWorld, freshDB] using hnod)
    have hlenh : w'.db.urlHashes.length = MAX_URLS_PER_SITEMAP + 1 := by
      rw [hh]
      simp [freshWorld, freshDB, hlen]
    have hsum : sumCounts w'.db.sitemaps = MAX_URLS_PER_SITEMAP + 1 := by
      rw [inv'.sumEq, hlenh]
    rcases pat' with hnil | ⟨k, c, hcounts, hc1, hc2⟩
    · rw [hnil] at hsum
      exact absurd hsum (by decide)
    · have hsum2 : k * MAX_URLS_PER_SITEMAP + c = MAX_URLS_PER_SITEMAP + 1 := by
        have h2 : (List.replicate k MAX_URLS_PER_SITEMAP ++ [c]).sum =
            MAX_URLS_PER_SITEMAP + 1 := by
          rw [← hcounts]
          exact hsum
        simpa [List.sum_append, List.sum_replicate, smul_eq_mul] using h2
      have hM : MAX_URLS_PER_SITEMAP = 50000 := rfl
      have hkc : k = 1 ∧ c = 1 := by
        rw [hM] at hsum2 hc2
        constructor <;> omega
      obtain ⟨hk1, hc1'⟩ := hkc
      subst hk1
      subst hc1'
      refine ⟨w', hrun, ?_, ?_⟩
      · have h3 := congrArg List.length hcounts
        simpa using h3
      · rw [hcounts]
        simp [List.replicate]
  · intro w w' url hr heq
    obtain ⟨inv, pat⟩ := reachableAdd_inv cfg rules hash w hr
    obtain ⟨hal, hfresh, -, -⟩ := addURL_ok_fields _ _ _ _ _ _ _ _ _ heq
    obtain ⟨w₂, heq₂, -, -, hbr⟩ :=
      addURL_ok_master _ _ _ _ _ _ _ now inv hal hfresh
    have hw : w' = w₂ := by
      rw [heq] at heq₂
      exact (Prod.mk.injEq _ _ _ _ ▸ heq₂).1
    subst hw
    constructor
    · intro hgrow
      rcases hbr with ⟨pre, e, hsplit, hcur, hlt, hnew, -⟩ | ⟨hcond, -, -⟩
      · exfalso
        have hl1 : w'.db.sitemaps.length = w.db.sitemaps.length := by
          rw [hnew, hsplit]
          simp
        omega
      · rcases hcond with hnil | ⟨pre, e, hsplit, hcur, hge⟩
        · exact Or.inl hnil
        · exact Or.inr ⟨e, by rw [hsplit]; simp, hcur.symm, hge⟩
    · intro hcond2
      rcases hbr with ⟨pre, e, hsplit, hcur, hlt, hnew, -⟩ | ⟨-, hnew, -⟩
      · exfalso
        rcases hcond2 with hnil | ⟨info, hmem, hname, hge⟩
        · rw [hnil] at hsplit
          exact absurd hsplit.symm (by simp)
        · obtain ⟨hpre, hename⟩ := names_split cfg pre e (hsplit ▸ inv.namesCanon)
          rw [hsplit] at hmem
          rcases List.mem_append.mp hmem with hin | hin
          · exact pre_filename_ne cfg pre pre.length hpre
              (by omega : pre.length < pre.length + 1) info hin
              (by rw [hname, hcur, hename])
          · rw [List.mem_singleton.mp hin] at hname hge
            have hM : MAX_URLS_PER_SITEMAP = 50000 := rfl
            omega
      · rw [hnew]
        simp

/-- A concrete successful add with the robots-off configuration. -/
def addW1f : World × Option AddError :=
  AddURL cfgFree [] idHash (freshWorld 0) "https://example.com/u" "weekly" 0 0

theorem addW1f_ok : addW1f = (addW1f.1, none) := rfl

theorem c2_witness :
    (∃ w', addAll cfgFree [] idHash "weekly" 0 0 (freshWorld 0) bigURLs =
        some w' ∧
      w'.db.sitemaps.length = 2 ∧
      w'.db.sitemaps.map (fun i => i.urlCount) = [MAX_URLS_PER_SITEMAP, 1]) ∧
    (addW1f.1.db.sitemaps.length = (freshWorld 0).db.sitemaps.length + 1 ↔
      ((freshWorld 0).db.sitemaps = [] ∨
        ∃ info ∈ (freshWorld 0).db.sitemaps,
          info.filename = (freshWorld 0).db.currentSitemap ∧
          MAX_URLS_PER_SITEMAP ≤ info.urlCount)) :=
  ⟨(c2_capacity_rollover cfgFree [] idHash "weekly" 0 0 0).1 bigURLs
      bigURLs_length bigURLs_nodup (fun _ _ => rfl),
   (c2_capacity_rollover cfgFree [] idHash "weekly" 0 0 0).2 (freshWorld 0)
      addW1f.1 "https://example.com/u" (ReachableAdd.init 0) addW1f_ok⟩
